import Mathlib

/-!
Verification of the backtesting core of `trading-tools`.

Shallow embedding conventions:
* Python `Decimal` values are modelled as exact rationals (`ℚ`); every
  `Decimal` computation appearing in a proved statement stays well inside the
  28-significant-digit default context, so the model agrees with the source.
* Python `float` is modelled by `float64`, the exact rational value of the
  nearest IEEE-754 binary64 number (round to nearest, ties to even), defined
  below for the normal range.
* `datetime` timestamps are modelled as naturals (only their total order and
  equality are ever used by the code).
* Raised exceptions are modelled as explicit error values; a function that can
  raise returns the error together with the state as it was at the moment of
  the raise (the source raises before mutating, which is itself one of the
  verified claims).
-/

namespace TradingTools

/-- Embedding of `indicators.PositionType` (enum with members `long` and `short`). -/
inductive PositionType where
  | long
  | short
deriving DecidableEq

/-- Embedding of `schemas.Candle`: OHLCV bar. The Python field `open` is a Lean keyword, so
it is rendered `opn` here; all other field names follow the source. -/
structure Candle where
  opn : ℚ
  high : ℚ
  low : ℚ
  close : ℚ
  volume : ℚ
  time : ℕ
deriving DecidableEq

/-- Embedding of `backtesting.Position`: pydantic model whose fields are all optional and
default to `None`.  (The source annotates `open_price`/`close_price` as
`datetime` by a copy-paste slip, but pydantic v1 does not validate attribute
assignment, so at runtime the fields hold the `Decimal` prices; they are
modelled as prices.) -/
structure Position where
  type : Option PositionType := none
  open_time : Option ℕ := none
  open_price : Option ℚ := none
  close_time : Option ℕ := none
  close_price : Option ℚ := none
deriving DecidableEq

/-- A freshly constructed `Position()`. -/
def Position.empty : Position := {}

/-- Errors raised by the backtesting core (all are `RuntimeError` /
`StopIteration` in the source; distinct constructors keep the messages apart). -/
inductive RunError where
  | positionAlreadyOpened
  | positionNotOpened
  | stopIteration
deriving DecidableEq

/-- State of `backtesting.BacktesterMarket`: the trade ledger `_positions`, the
simulated clock (`current_time`, `current_price`, both `None` until the
backtester first sets them) and the single open-position slot. -/
structure MarketState where
  positions : List Position := []
  current_time : Option ℕ := none
  current_price : Option ℚ := none
  current_position : Position := Position.empty
deriving DecidableEq

/-- Embedding of `BacktesterMarket.__init__` (the `balance` parameter is ignored by the
source as well). -/
def initMarket : MarketState := {}

/-- Embedding of `BacktesterMarket.open_position`.  Returns the raised error (if any)
together with the state after the call; the guard fires before any mutation. -/
def open_position (s : MarketState) (position_type : PositionType) :
    Option RunError × MarketState :=
  if s.current_position.type ≠ none then
    (some .positionAlreadyOpened, s)
  else
    (none, { s with
      current_position := { s.current_position with
        type := some position_type
        open_time := s.current_time
        open_price := s.current_price } })

/-- Embedding of `BacktesterMarket.close_position`.  Returns the raised error (if any)
together with the state after the call; the guard fires before any mutation. -/
def close_position (s : MarketState) : Option RunError × MarketState :=
  if s.current_position.type = none then
    (some .positionNotOpened, s)
  else
    (none, { s with
      positions := s.positions ++
        [{ s.current_position with
            close_time := s.current_time
            close_price := s.current_price }]
      current_position := Position.empty })

/-- A market operation a strategy may issue during one dispatch. -/
inductive MarketOp where
  | openPos (position_type : PositionType)
  | closePos
deriving DecidableEq

/-- Apply one market operation (a strategy's call into the market facade). -/
def applyOp (s : MarketState) : MarketOp → Option RunError × MarketState
  | .openPos ty => open_position s ty
  | .closePos => close_position s

/-- Apply the operations a strategy issued during one dispatch, in order,
stopping at the first raised error (a raise aborts the dispatch). -/
def dispatchOps (s : MarketState) : List MarketOp → Option RunError × MarketState
  | [] => (none, s)
  | op :: ops =>
    match applyOp s op with
    | (some e, s') => (some e, s')
    | (none, s') => dispatchOps s' ops

/-! ## The replay loop (`backtesting.Backtester`)

The strategy (`Indicator` subclass) is abstracted as a step function of type
`σ → Candle → MarketState → σ × List MarketOp`: given its own state, the candle
delivered to `on_candle` and the market state visible at the start of the
dispatch (the backtester has already advanced the clock), it returns its new
state and the market calls it issues, in order.  The bundled indicators never
read the market mutably mid-dispatch, so this captures them exactly. -/

/-- One dispatch of the replay loop as recorded for the proofs: the candle
handed to `on_candle`, the simulated clock (`current_time`/`current_price`)
during that dispatch, and the market operations the strategy issued. -/
structure TraceEntry where
  candle : Candle
  time : ℕ
  price : ℚ
  ops : List MarketOp
deriving DecidableEq

/-- Result of the `for` loop inside `Backtester.run`: the raised error (if
any), the strategy's final state, the market, the dispatch trace, and the part
of the candle iterator left unconsumed (nonempty only when a dispatch raised). -/
structure LoopResult (σ : Type) where
  err : Option RunError
  strat : σ
  market : MarketState
  trace : List TraceEntry
  remaining : List Candle
deriving DecidableEq

/-- Lines 89–90 of `Backtester.run`: advance the simulated clock to the *next*
candle's time and its opening price. -/
def setClock (m : MarketState) (next : Candle) : MarketState :=
  { m with current_time := some next.time, current_price := some next.opn }

/-- The `for next_candle in ...` loop of `Backtester.run` (lines 88–94):
set `current_time` to the *next* candle's `time` and `current_price` to the
*next* candle's `open`, dispatch the *previous* candle to the strategy, then
slide the window.  A raise inside the dispatch aborts the loop. -/
def runLoop {σ : Type} (step : σ → Candle → MarketState → σ × List MarketOp) :
    σ → MarketState → Candle → List Candle → LoopResult σ
  | s, m, _prev, [] => ⟨none, s, m, [], []⟩
  | s, m, prev, next :: rest =>
    let m1 := setClock m next
    let sr := step s prev m1
    let dr := dispatchOps m1 sr.2
    match dr.1 with
    | some e => ⟨some e, sr.1, dr.2, [⟨prev, next.time, next.opn, sr.2⟩], rest⟩
    | none =>
      let r := runLoop step sr.1 dr.2 next rest
      { r with trace := ⟨prev, next.time, next.opn, sr.2⟩ :: r.trace }

/-- State of `backtesting.Backtester`: the candle feed (an iterator, modelled by
the list of candles it has yet to yield), its market, and the `_tested` flag
(which the source assigns in `__init__` and never reads again). -/
structure Backtester where
  candles : List Candle
  market : MarketState
  tested : Bool
deriving DecidableEq

/-- Embedding of `Backtester.__init__`. -/
def mkBacktester (candles : List Candle) : Backtester :=
  { candles := candles, market := initMarket, tested := false }

/-- Everything `Backtester.run` produces: the raised error (if any), the
backtester as left behind by the call, the strategy's final state, the
dispatch trace, and `_candles_cache` (the `itertools.tee` snapshot used for
progress reporting). -/
structure RunOutcome (σ : Type) where
  err : Option RunError
  bt : Backtester
  strat : σ
  trace : List TraceEntry
  cache : List Candle
deriving DecidableEq

/-- Embedding of `Backtester.run` (lines 80–96): snapshot the feed (`itertools.tee`), pull
the first candle with `next(...)` — raising `StopIteration` if the feed is
exhausted — and drive the loop.  On success the feed iterator is left
exhausted; on an abort it retains the unconsumed suffix. -/
def Backtester.run {σ : Type} (b : Backtester)
    (step : σ → Candle → MarketState → σ × List MarketOp) (s0 : σ) : RunOutcome σ :=
  match b.candles with
  | [] => ⟨some .stopIteration, { b with candles := [] }, s0, [], b.candles⟩
  | prev :: rest =>
    let r := runLoop step s0 b.market prev rest
    ⟨r.err, { b with candles := r.remaining, market := r.market }, r.strat, r.trace, b.candles⟩

/-- The clock times of the dispatches during which the strategy issued a
`close_position` call, in dispatch order. -/
def closeClocksOf : List TraceEntry → List ℕ
  | [] => []
  | e :: es => if MarketOp.closePos ∈ e.ops then e.time :: closeClocksOf es else closeClocksOf es

/-! ## Statistics (`backtesting.BacktesterStatistics`) -/

/-- Embedding of `decimal.Decimal(0.0005)` — note the source converts the *float* `0.0005`,
but the statistics claims quantify over an arbitrary commission rate, so the
exact constant is never load-bearing. -/
def TINKOFF_COMISSION : ℚ := 5 / 10000

/-- Python `int(...)` applied to a rational value: truncation toward zero. -/
def int_trunc (q : ℚ) : ℤ := if 0 ≤ q then ⌊q⌋ else ⌈q⌉

/-- Round a rational to the nearest integer, ties to even (the IEEE-754
default rounding used by binary64 floats). -/
def roundHalfEven (q : ℚ) : ℤ :=
  if q - ⌊q⌋ < 1 / 2 then ⌊q⌋
  else if 1 / 2 < q - ⌊q⌋ then ⌊q⌋ + 1
  else if ⌊q⌋ % 2 = 0 then ⌊q⌋ else ⌊q⌋ + 1

/-- Floor of the base-2 logarithm for positive rationals, by fuelled binary search (the fuel 400
covers every magnitude the embedded program can produce; the recursion depth
actually used is `|⌊log₂ q⌋|`). -/
def floorLog2From : ℕ → ℚ → ℤ
  | 0, _ => 0
  | fuel + 1, q =>
    if 2 ≤ q then floorLog2From fuel (q / 2) + 1
    else if q < 1 then floorLog2From fuel (2 * q) - 1
    else 0

/-- The exact rational value of the IEEE-754 binary64 float nearest to `q`
(round to nearest, ties to even), for `q` in the normal range.  This models
Python's `float(...)` conversion of a `Decimal`. -/
def float64 (q : ℚ) : ℚ :=
  if q = 0 then 0
  else
    let e : ℤ := floorLog2From 400 |q|
    (if q < 0 then -1 else 1) * (roundHalfEven (|q| * 2 ^ (52 - e)) : ℚ) * 2 ^ (e - 52)

/-- The `Decimal` expression inside `BacktesterStatistics._calc_profit_ratio`
(lines 124–134): the per-trade profit ratio before the `float(...)`
presentation cast.  The source tests `row.type == PositionType.long` and
treats everything else (i.e. `short`) by the short formula. -/
def calc_profit_ratio (ty : Option PositionType) (open_price close_price c : ℚ) : ℚ :=
  if ty = some .long then
    (close_price - close_price * c) / (open_price + open_price * c)
  else
    (open_price + open_price * c) / (close_price - close_price * c)

/-- Value of `_calc_profit_ratio` as the source returns it: the decimal ratio converted
to a binary64 float. -/
def calc_profit_ratio_float (ty : Option PositionType) (open_price close_price c : ℚ) : ℚ :=
  float64 (calc_profit_ratio ty open_price close_price c)

/-- Helper for `_calc_equity`: `equity` starts at `Decimal(1)` and each value
multiplies the last element; the running element is passed explicitly. -/
def calc_equity_aux (eq : ℚ) : List ℚ → List ℚ
  | [] => []
  | v :: vs => (eq * v) :: calc_equity_aux (eq * v) vs

/-- Embedding of `BacktesterStatistics._calc_equity` (lines 136–143): the running product
of the profit ratios starting from `1` (the leading `1` is dropped by
`equity[1:]`). -/
def calc_equity (profit_ratio : List ℚ) : List ℚ :=
  calc_equity_aux 1 profit_ratio

/-- The profit ratio of one ledger row as the `positions` property computes it
(line 151): `_calc_profit_ratio` applied to the row's fields, including the
`float(...)` cast.  Ledger rows always carry their prices; `getD 0` only
discharges the `Option`. -/
def row_profit_ratio (r : Position) (c : ℚ) : ℚ :=
  calc_profit_ratio_float r.type (r.open_price.getD 0) (r.close_price.getD 0) c

/-- The `positions` property of `BacktesterStatistics` (lines 145–155),
restricted to the two derived columns: each row's `(profit_ratio, equity)`.
The `profit_ratio` column holds floats; `_calc_equity` converts each float
back to `Decimal` (exactly) and compounds. -/
def positions_table (rows : List Position) (c : ℚ) : List (ℚ × ℚ) :=
  let ratios := rows.map (fun r => row_profit_ratio r c)
  ratios.zip (calc_equity ratios)

/-! ## `utils.PriceHistory` -/

/-- Embedding of `utils.PriceHistory`: a bounded series of `(time, price-in-cents)`
samples (`pd.Series` indexed by time).  `add` stores `int(price * 100)`. -/
structure PriceHistory where
  size : ℕ
  data : List (ℕ × ℤ)
deriving DecidableEq

/-- Embedding of `PriceHistory.__init__(size)`. -/
def mkPriceHistory (size : ℕ) : PriceHistory := ⟨size, []⟩

/-- Embedding of `PriceHistory.add` (lines 15–20): append `int(price * 100)` under the
candle's time, then drop the oldest sample (`iloc[1:]`) if the capacity is
exceeded. -/
def PriceHistory.add (h : PriceHistory) (price : ℚ) (time : ℕ) : PriceHistory :=
  let d := h.data ++ [(time, int_trunc (price * 100))]
  { h with data := if h.size < d.length then d.drop 1 else d }

/-- Errors of `PriceHistory.calc_sma`: the explicit `ValueError` for a window
larger than the capacity, and the implicit raise (`int(NaN)` / empty index)
when fewer samples than the window have been observed. -/
inductive SmaError where
  | configuration
  | insufficientData
deriving DecidableEq

/-- Embedding of `PriceHistory.calc_sma` (lines 22–26): guard `sma_size > self._size`, then
return the newest sample's time together with `int` of the rolling mean of the
last `sma_size` stored values.  (`pandas` computes that mean in binary floats;
at the integer magnitudes the program stores, the truncated float mean and the
truncated exact mean coincide, so the mean is modelled exactly.) -/
def PriceHistory.calc_sma (h : PriceHistory) (sma_size : ℕ) :
    Except SmaError (ℕ × ℤ) :=
  if h.size < sma_size then .error .configuration
  else if sma_size = 0 ∨ h.data.length < sma_size then .error .insufficientData
  else
    match h.data.getLast? with
    | none => .error .insufficientData
    | some last =>
      .ok (last.1,
        int_trunc ((((h.data.drop (h.data.length - sma_size)).map Prod.snd).sum : ℤ) /
          (sma_size : ℚ)))

/-! ## `trading.MAIntersectionTrader` (the moving-average-crossover strategy)

Its market calls (`market.buy()` / `market.sell()`) are modelled as the
optional order emitted by one `on_candle` step; `generate_signal` issues at
most one per candle. -/

/-- Embedding of `schemas.OrderType`. -/
inductive OrderType where
  | buy
  | sell
deriving DecidableEq

/-- The sign stored in `sma_signs` (trading.py lines 122–127). -/
def signOf (d : ℤ) : ℤ := if 0 < d then 1 else if d < 0 then -1 else 0

/-- Embedding of `MAIntersectionTrader.generate_signal` (lines 135–150), as a function of
the last two stored signs `prev` and `last`. -/
def generate_signal (prev last : ℤ) : Option OrderType :=
  if last - prev = 2 then some .buy
  else if last - prev = -2 then some .sell
  else if prev = 0 then
    if last = 1 then some .buy
    else if last = -1 then some .sell
    else none
  else none

/-- State of `MAIntersectionTrader`: `history` (capacity 10), the `sma_diffs`
series and the `sma_signs` series (both indexed by time). -/
structure MAState where
  history : PriceHistory
  sma_diffs : List (ℕ × ℤ)
  sma_signs : List (ℕ × ℤ)
deriving DecidableEq

/-- Embedding of `MAIntersectionTrader.__init__`. -/
def initMAState : MAState := ⟨mkPriceHistory 10, [], []⟩

/-- Embedding of `MAIntersectionTrader.on_candle` (lines 108–133): record the close, and
once the history holds `sma_long_size = 10` samples compute both SMAs, append
the diff, append its sign from the second diff on, and from the second sign on
run `generate_signal` on the last two signs.  The SMA calls cannot fail when
the history is full (2 ≤ 10 and 10 ≤ 10); the fallback arm is unreachable. -/
def MAState.on_candle (st : MAState) (c : Candle) : MAState × Option OrderType :=
  let history := st.history.add c.close c.time
  if history.data.length = 10 then
    match history.calc_sma 2, history.calc_sma 10 with
    | .ok short, .ok long =>
      let date := short.1
      let sma_diff := short.2 - long.2
      let sma_diffs := st.sma_diffs ++ [(date, sma_diff)]
      let sma_signs :=
        if 2 ≤ sma_diffs.length then st.sma_signs ++ [(date, signOf sma_diff)]
        else st.sma_signs
      let signal :=
        if 2 ≤ sma_signs.length then
          match sma_signs.dropLast.getLast?, sma_signs.getLast? with
          | some p, some l => generate_signal p.2 l.2
          | _, _ => none
        else none
      (⟨history, sma_diffs, sma_signs⟩, signal)
    | _, _ => (⟨history, st.sma_diffs, st.sma_signs⟩, none)
  else (⟨history, st.sma_diffs, st.sma_signs⟩, none)

/-- Feed a list of candles to the trader in order, collecting the signal (or
absence of one) each candle produced — the `trading.Backtester.run` loop
restricted to what the crossover claims observe. -/
def runMA : MAState → List Candle → MAState × List (Option OrderType)
  | st, [] => (st, [])
  | st, c :: cs =>
    let r := st.on_candle c
    let rest := runMA r.1 cs
    (rest.1, r.2 :: rest.2)

/-! ## Concrete fixtures used by witnesses and counterexamples -/

/-- A candle with the given time, open and close (high/low/volume are never
read by the embedded code paths). -/
def mkCandle (time : ℕ) (opn close : ℚ) : Candle :=
  { opn := opn, high := opn, low := opn, close := close, volume := 0, time := time }

/-- A single candle at time 1. -/
def feed1 : List Candle := [mkCandle 1 10 10]

/-- Two candles at times 1, 2 with opens 10, 20. -/
def feed2 : List Candle := [mkCandle 1 10 10, mkCandle 2 20 20]

/-- Three candles at times 1, 2, 3 with opens 10, 20, 30. -/
def feed3 : List Candle := [mkCandle 1 10 10, mkCandle 2 20 20, mkCandle 3 30 30]

/-- Four candles at times 1, 2, 3, 4 with opens 10, 20, 30, 40. -/
def feed4 : List Candle := feed3 ++ [mkCandle 4 40 40]

/-- A strategy that never issues a market operation. -/
def constStep : Unit → Candle → MarketState → Unit × List MarketOp :=
  fun _ _ _ => ((), [])

/-- A strategy that opens a long on its first dispatch, closes on its second,
and then stays idle; its state counts the dispatches. -/
def openCloseStep : ℕ → Candle → MarketState → ℕ × List MarketOp :=
  fun n _ _ =>
    (n + 1, if n = 0 then [.openPos .long] else if n = 1 then [.closePos] else [])

/-- Eleven candles whose closes are nine `100`s, then `80`, then `200`: the
first SMA difference the crossover trader computes is negative and the second
positive. -/
def maFeed : List Candle :=
  [mkCandle 1 100 100, mkCandle 2 100 100, mkCandle 3 100 100, mkCandle 4 100 100,
   mkCandle 5 100 100, mkCandle 6 100 100, mkCandle 7 100 100, mkCandle 8 100 100,
   mkCandle 9 100 100, mkCandle 10 80 80, mkCandle 11 200 200]

/-- A `PriceHistory(size=3)` fed prices 10, 20, 30 at times 1, 2, 3. -/
def ph3 : PriceHistory := (((mkPriceHistory 3).add 10 1).add 20 2).add 30 3

/-- State of `ph3` after the fourth price 40 at time 4 (the oldest sample is evicted). -/
def ph4 : PriceHistory := ph3.add 40 4

/-- Three closed long trades whose exact profit ratios at commission 0 are
`11/10`, `9/10` and `12/10` — the equity-compounding example of the spec. -/
def cexRows : List Position :=
  [{ type := some .long, open_time := some 1, open_price := some 100,
     close_time := some 2, close_price := some 110 },
   { type := some .long, open_time := some 3, open_price := some 100,
     close_time := some 4, close_price := some 90 },
   { type := some .long, open_time := some 5, open_price := some 100,
     close_time := some 6, close_price := some 120 }]

/-- What the claimed dispatch schedule looks like for a feed: candle `i`
delivered with candle `i+1`'s time and open as the clock. -/
def expectedTrace (feed : List Candle) : List (Candle × ℕ × ℚ) :=
  (feed.zip (feed.drop 1)).map (fun pc => (pc.1, pc.2.time, pc.2.opn))

/-- The reachability invariant of the crossover trader: the sign series is
the pointwise sign of the difference series with its first entry skipped
(`sma_signs` only starts being appended at the second difference). -/
def MAInvariant (st : MAState) : Prop :=
  st.sma_signs = (st.sma_diffs.drop 1).map (fun p => (p.1, signOf p.2))

/-- A crossover-trader state mid-run: the history holds nine samples of `100`
(in cents), one difference `(5, -3)` has been recorded and one more `(6, 4)`
has just received its sign. -/
def maMidState : MAState :=
  { history := ⟨10, [(1, 10000), (2, 10000), (3, 10000), (4, 10000), (5, 10000),
      (6, 10000), (7, 10000), (8, 10000), (9, 10000)]⟩
    sma_diffs := [(5, -3), (6, 4)]
    sma_signs := [(6, 1)] }

end TradingTools

namespace TradingTools

/-- Evaluation of `float64` at the float the source stores for the exact
decimal ratio `1.1`. -/
theorem float64_eval_1_1 : float64 (11 / 10) = 2476979795053773 / 2251799813685248 := by
  have h1 : floorLog2From 400 (11 / 10 : ℚ) = 0 := by rw [floorLog2From]; norm_num
  norm_num [float64, h1, roundHalfEven, abs_of_pos]

/-- Evaluation of `float64` at the float the source stores for the exact
decimal ratio `0.9`. -/
theorem float64_eval_0_9 : float64 (9 / 10) = 8106479329266893 / 9007199254740992 := by
  have h0 : floorLog2From 399 (9 / 5 : ℚ) = 0 := by rw [floorLog2From]; norm_num
  have h1 : floorLog2From 400 (9 / 10 : ℚ) = -1 := by rw [floorLog2From]; norm_num [h0]
  norm_num [float64, h1, roundHalfEven, abs_of_pos]

/-- Evaluation of `float64` at the float the source stores for the exact
decimal ratio `1.2`. -/
theorem float64_eval_1_2 : float64 (6 / 5) = 5404319552844595 / 4503599627370496 := by
  have h1 : floorLog2From 400 (6 / 5 : ℚ) = 0 := by rw [floorLog2From]; norm_num
  norm_num [float64, h1, roundHalfEven, abs_of_pos]

/-- Value `1.5` is exactly representable in binary64, so `float64` fixes it. -/
theorem float64_eval_3_2 : float64 (3 / 2) = 3 / 2 := by
  have h1 : floorLog2From 400 (3 / 2 : ℚ) = 0 := by rw [floorLog2From]; norm_num
  norm_num [float64, h1, roundHalfEven, abs_of_pos]

set_option maxRecDepth 40000 in
/-- Concrete evaluation of the crossover trader over `maFeed`: the two
recorded SMA differences are `-800` then `3200` (a negative-to-positive pair)
and no signal is ever emitted. -/
theorem runMA_maFeed_eval :
    (runMA initMAState maFeed).2 = List.replicate 11 none ∧
    (runMA initMAState maFeed).1.sma_diffs = [(10, -800), (11, 3200)] := by
  norm_num [runMA, initMAState, maFeed, mkCandle, MAState.on_candle, mkPriceHistory,
    PriceHistory.add, PriceHistory.calc_sma, int_trunc, signOf, generate_signal,
    List.replicate]

/-- Unfolded form of one `runLoop` iteration, split on whether the dispatch
raised. -/
theorem runLoop_cons {σ : Type} (step : σ → Candle → MarketState → σ × List MarketOp)
    (s : σ) (m : MarketState) (prev next : Candle) (rest : List Candle) :
    runLoop step s m prev (next :: rest) =
      match (dispatchOps (setClock m next) (step s prev (setClock m next)).2).1 with
      | some e =>
        ⟨some e, (step s prev (setClock m next)).1,
          (dispatchOps (setClock m next) (step s prev (setClock m next)).2).2,
          [⟨prev, next.time, next.opn, (step s prev (setClock m next)).2⟩], rest⟩
      | none =>
        { runLoop step (step s prev (setClock m next)).1
            (dispatchOps (setClock m next) (step s prev (setClock m next)).2).2 next rest with
          trace := ⟨prev, next.time, next.opn, (step s prev (setClock m next)).2⟩ ::
            (runLoop step (step s prev (setClock m next)).1
              (dispatchOps (setClock m next) (step s prev (setClock m next)).2).2
              next rest).trace } := by
  rw [runLoop]

/-- One `runLoop` iteration whose dispatch succeeded. -/
theorem runLoop_cons_ok {σ : Type} (step : σ → Candle → MarketState → σ × List MarketOp)
    (s : σ) (m : MarketState) (prev next : Candle) (rest : List Candle)
    (hd : (dispatchOps (setClock m next) (step s prev (setClock m next)).2).1 = none) :
    runLoop step s m prev (next :: rest) =
      { runLoop step (step s prev (setClock m next)).1
          (dispatchOps (setClock m next) (step s prev (setClock m next)).2).2 next rest with
        trace := ⟨prev, next.time, next.opn, (step s prev (setClock m next)).2⟩ ::
          (runLoop step (step s prev (setClock m next)).1
            (dispatchOps (setClock m next) (step s prev (setClock m next)).2).2
            next rest).trace } := by
  rw [runLoop_cons, hd]

/-- One `runLoop` iteration whose dispatch raised. -/
theorem runLoop_cons_err {σ : Type} (step : σ → Candle → MarketState → σ × List MarketOp)
    (s : σ) (m : MarketState) (prev next : Candle) (rest : List Candle) (e : RunError)
    (hd : (dispatchOps (setClock m next) (step s prev (setClock m next)).2).1 = some e) :
    runLoop step s m prev (next :: rest) =
      ⟨some e, (step s prev (setClock m next)).1,
        (dispatchOps (setClock m next) (step s prev (setClock m next)).2).2,
        [⟨prev, next.time, next.opn, (step s prev (setClock m next)).2⟩], rest⟩ := by
  rw [runLoop_cons, hd]

/-- Unfolding lemma for `closeClocksOf`. -/
theorem closeClocksOf_cons (e : TraceEntry) (es : List TraceEntry) :
    closeClocksOf (e :: es) =
      if MarketOp.closePos ∈ e.ops then e.time :: closeClocksOf es
      else closeClocksOf es := by
  rw [closeClocksOf]

/-- Every dispatch of the replay loop carries the candle being dispatched
together with the *following* candle's time and open as the clock. -/
theorem runLoop_trace_zip {σ : Type} (step : σ → Candle → MarketState → σ × List MarketOp) :
    ∀ (rest : List Candle) (s : σ) (m : MarketState) (prev : Candle),
      ∃ suf,
        (runLoop step s m prev rest).trace.map (fun e => (e.candle, e.time, e.price)) ++ suf
          = ((prev :: rest).zip rest).map (fun pc => (pc.1, pc.2.time, pc.2.opn)) := by
  intro rest
  induction rest with
  | nil => exact fun s m prev => ⟨[], by simp [runLoop]⟩
  | cons next rest ih =>
    intro s m prev
    rw [runLoop_cons]
    rcases hd : (dispatchOps (setClock m next) (step s prev (setClock m next)).2).1 with _ | e
    · obtain ⟨suf, hsuf⟩ := ih (step s prev (setClock m next)).1
        (dispatchOps (setClock m next) (step s prev (setClock m next)).2).2 next
      exact ⟨suf, by simp [List.zip_cons_cons, hsuf]⟩
    · exact ⟨((next :: rest).zip rest).map (fun pc => (pc.1, pc.2.time, pc.2.opn)),
        by simp [List.zip_cons_cons]⟩

/-- A completed (error-free) loop consumed the whole feed and dispatched the
window-leading candles, i.e. every candle but the last. -/
theorem runLoop_complete {σ : Type} (step : σ → Candle → MarketState → σ × List MarketOp) :
    ∀ (rest : List Candle) (s : σ) (m : MarketState) (prev : Candle),
      (runLoop step s m prev rest).err = none →
      (runLoop step s m prev rest).remaining = [] ∧
      (runLoop step s m prev rest).trace.map TraceEntry.candle = (prev :: rest).dropLast := by
  intro rest
  induction rest with
  | nil => exact fun s m prev _ => ⟨rfl, by simp [runLoop]⟩
  | cons next rest ih =>
    intro s m prev herr
    rw [runLoop_cons] at herr ⊢
    rcases hd : (dispatchOps (setClock m next) (step s prev (setClock m next)).2).1 with _ | e
    · obtain ⟨hrem, htr⟩ := ih (step s prev (setClock m next)).1
        (dispatchOps (setClock m next) (step s prev (setClock m next)).2).2 next
        (by simp [hd] at herr ⊢; exact herr)
      constructor
      · simpa [hd] using hrem
      · simp only [hd]
        simpa [List.dropLast] using htr
    · rw [hd] at herr
      simp at herr

/-- Fact: `open_position` never touches the ledger, on success or failure. -/
theorem open_position_positions (s : MarketState) (ty : PositionType) :
    (open_position s ty).2.positions = s.positions := by
  rw [open_position]; split <;> rfl

/-- A successful `close_position` is exactly the stamp-append-clear update. -/
theorem close_position_success (s : MarketState) (h : (close_position s).1 = none) :
    (close_position s).2 = { s with
      positions := s.positions ++ [{ s.current_position with
        close_time := s.current_time, close_price := s.current_price }]
      current_position := Position.empty } := by
  by_cases hc : s.current_position.type = none
  · rw [close_position, if_pos hc] at h
    simp at h
  · rw [close_position, if_neg hc]

/-- Either market operation only ever appends to the ledger. -/
theorem applyOp_positions (m : MarketState) (op : MarketOp) :
    ∃ suf, (applyOp m op).2.positions = m.positions ++ suf := by
  rcases op with ty | _
  · rw [applyOp]
    exact ⟨[], by rw [open_position_positions, List.append_nil]⟩
  · rw [applyOp, close_position]
    split
    · exact ⟨[], by simp⟩
    · exact ⟨_, rfl⟩

/-- Any sequence of market operations only ever appends to the ledger. -/
theorem dispatchOps_positions : ∀ (ops : List MarketOp) (m : MarketState),
    ∃ suf, (dispatchOps m ops).2.positions = m.positions ++ suf := by
  intro ops
  induction ops with
  | nil => exact fun m => ⟨[], by simp [dispatchOps]⟩
  | cons op ops ih =>
    intro m
    obtain ⟨suf1, h1⟩ := applyOp_positions m op
    rw [dispatchOps]
    rcases ha : applyOp m op with ⟨e, m'⟩
    rw [ha] at h1
    rcases e with _ | e
    · obtain ⟨suf2, h2⟩ := ih m'
      exact ⟨suf1 ++ suf2, by
        simp only []
        rw [h2, h1, List.append_assoc]⟩
    · exact ⟨suf1, h1⟩

/-- Appending one more candle to the feed only ever appends to the final
ledger (whether or not either run aborted). -/
theorem runLoop_snoc {σ : Type} (step : σ → Candle → MarketState → σ × List MarketOp) :
    ∀ (xs : List Candle) (c : Candle) (s : σ) (m : MarketState) (prev : Candle),
      ∃ suf, (runLoop step s m prev (xs ++ [c])).market.positions
        = (runLoop step s m prev xs).market.positions ++ suf := by
  intro xs
  induction xs with
  | nil =>
    intro c s m prev
    rw [List.nil_append, runLoop_cons, runLoop]
    obtain ⟨suf, hsuf⟩ :=
      dispatchOps_positions (step s prev (setClock m c)).2 (setClock m c)
    rcases hd : (dispatchOps (setClock m c) (step s prev (setClock m c)).2).1 with _ | e
    · exact ⟨suf, by rw [runLoop]; simpa [setClock] using hsuf⟩
    · exact ⟨suf, by simpa [setClock] using hsuf⟩
  | cons x xs ih =>
    intro c s m prev
    rw [List.cons_append, runLoop_cons, runLoop_cons]
    rcases hd : (dispatchOps (setClock m x) (step s prev (setClock m x)).2).1 with _ | e
    · exact ih c (step s prev (setClock m x)).1
        (dispatchOps (setClock m x) (step s prev (setClock m x)).2).2 x
    · exact ⟨[], by simp⟩

/-- A list of length at most one is empty or a singleton. -/
theorem ops_shape (l : List MarketOp) (h : l.length ≤ 1) : l = [] ∨ ∃ op, l = [op] := by
  rcases l with _ | ⟨op, _ | ⟨op2, l⟩⟩
  · exact Or.inl rfl
  · exact Or.inr ⟨op, rfl⟩
  · simp at h

/-- The heart of the ledger claim: under strictly increasing dispatch clocks
and at most one market operation per dispatch, an error-free loop appends to
the ledger exactly one position per close-issuing dispatch, stamped with that
dispatch's clock time, so the appended close times are the close-invocation
clock times in order and strictly increasing, all above the starting time. -/
theorem runLoop_closes {σ : Type} (step : σ → Candle → MarketState → σ × List MarketOp)
    (hstep : ∀ s c m, ((step s c m).2).length ≤ 1) :
    ∀ (rest : List Candle) (s : σ) (m : MarketState) (prev : Candle) (t0 : ℕ),
      (runLoop step s m prev rest).err = none →
      List.Chain' (· < ·) (rest.map Candle.time) →
      (∀ c ∈ rest, t0 < c.time) →
      ∃ newL,
        (runLoop step s m prev rest).market.positions = m.positions ++ newL ∧
        newL.map Position.close_time =
          (closeClocksOf (runLoop step s m prev rest).trace).map some ∧
        List.Chain' (· < ·) (closeClocksOf (runLoop step s m prev rest).trace) ∧
        (∀ t ∈ closeClocksOf (runLoop step s m prev rest).trace, t0 < t) := by
  intro rest
  induction rest with
  | nil =>
    intro s m prev t0 _ _ _
    exact ⟨[], by simp [runLoop, closeClocksOf]⟩
  | cons next rest ih =>
    intro s m prev t0 herr hchain hbound
    rcases hd : (dispatchOps (setClock m next) (step s prev (setClock m next)).2).1
      with _ | e
    swap
    · rw [runLoop_cons_err step s m prev next rest e hd] at herr
      simp at herr
    rw [runLoop_cons_ok step s m prev next rest hd] at herr ⊢
    simp only at herr ⊢
    have hpw := List.chain'_iff_pairwise.mp hchain
    rw [List.map_cons, List.pairwise_cons] at hpw
    have hhead : ∀ c ∈ rest, next.time < c.time := fun c hc =>
      hpw.1 _ (List.mem_map_of_mem Candle.time hc)
    have hchain' : List.Chain' (· < ·) (rest.map Candle.time) :=
      List.chain'_iff_pairwise.mpr hpw.2
    have ht0next : t0 < next.time := hbound next (List.mem_cons_self next rest)
    obtain ⟨newL, h1, h2, h3, h4⟩ := ih (step s prev (setClock m next)).1
      (dispatchOps (setClock m next) (step s prev (setClock m next)).2).2
      next next.time herr hchain' hhead
    rw [closeClocksOf_cons]
    rcases ops_shape _ (hstep s prev (setClock m next)) with hops | ⟨op, hops⟩
    · -- no market call this dispatch
      have hnotin : ¬ MarketOp.closePos ∈
          (⟨prev, next.time, next.opn, (step s prev (setClock m next)).2⟩ : TraceEntry).ops := by
        simp [hops]
      rw [if_neg hnotin]
      have hm2 : (dispatchOps (setClock m next) (step s prev (setClock m next)).2).2
          = setClock m next := by rw [hops, dispatchOps]
      refine ⟨newL, ?_, h2, h3, ?_⟩
      · rw [h1, hm2, setClock]
      · exact fun t htmem => lt_trans ht0next (h4 t htmem)
    · -- exactly one market call this dispatch; it must have succeeded
      have hda : dispatchOps (setClock m next) (step s prev (setClock m next)).2
          = applyOp (setClock m next) op := by
        rw [hops, dispatchOps]
        rcases ha : applyOp (setClock m next) op with ⟨_ | ae, m2⟩ <;> rfl
      rw [hda] at hd h1 h2 h3 h4 ⊢
      rcases op with ty | _
      · -- open: ledger untouched, not a close
        have hnotin : ¬ MarketOp.closePos ∈
            (⟨prev, next.time, next.opn, (step s prev (setClock m next)).2⟩ : TraceEntry).ops := by
          simp [hops]
        rw [if_neg hnotin]
        have hm2 : (applyOp (setClock m next) (.openPos ty)).2.positions
            = (setClock m next).positions := by
          rw [applyOp, open_position_positions]
        refine ⟨newL, ?_, h2, h3, ?_⟩
        · rw [h1, hm2, setClock]
        · exact fun t htmem => lt_trans ht0next (h4 t htmem)
      · -- close: one position appended with this dispatch's clock time
        have hin : MarketOp.closePos ∈
            (⟨prev, next.time, next.opn, (step s prev (setClock m next)).2⟩ : TraceEntry).ops := by
          simp [hops]
        rw [if_pos hin]
        have hsucc : (close_position (setClock m next)).1 = none := by
          rw [applyOp] at hd
          exact hd
        have hform := close_position_success (setClock m next) hsucc
        have hm2pos : (applyOp (setClock m next) .closePos).2.positions =
            m.positions ++ [{ (setClock m next).current_position with
              close_time := some next.time
              close_price := some next.opn }] := by
          rw [applyOp, hform]
          simp [setClock]
        refine ⟨{ (setClock m next).current_position with
            close_time := some next.time
            close_price := some next.opn } :: newL, ?_, ?_, ?_, ?_⟩
        · rw [h1, hm2pos, List.append_assoc]
          rfl
        · rw [List.map_cons, List.map_cons, h2]
        · exact List.chain'_cons'.mpr
            ⟨fun b hb => h4 b (List.mem_of_mem_head? hb), h3⟩
        · intro t htmem
          rcases List.mem_cons.mp htmem with rfl | htmem
          · exact ht0next
          · exact lt_trans ht0next (h4 t htmem)

/-- Running one more candle of the feed only ever appends to the ledger: the
ledger after `take (j+1)` candles extends the ledger after `take j` candles. -/
theorem run_take_mono (feed : List Candle) (σ : Type)
    (step : σ → Candle → MarketState → σ × List MarketOp) (s0 : σ) (j : ℕ) :
    ∃ suf, ((mkBacktester (feed.take (j + 1))).run step s0).bt.market.positions
      = ((mkBacktester (feed.take j)).run step s0).bt.market.positions ++ suf := by
  by_cases hj : feed.length ≤ j
  · rw [List.take_of_length_le hj, List.take_of_length_le (le_trans hj (Nat.le_succ j))]
    exact ⟨[], by simp⟩
  · push_neg at hj
    have hsucc : feed.take (j + 1) = feed.take j ++ [feed[j]] := by
      rw [List.take_succ, List.getElem?_eq_getElem hj]
      rfl
    rw [hsucc]
    rcases hx : feed.take j with _ | ⟨prev, xs⟩
    · rw [List.nil_append]
      exact ⟨[], by simp [mkBacktester, Backtester.run, runLoop, initMarket]⟩
    · rw [List.cons_append]
      obtain ⟨suf, hsuf⟩ := runLoop_snoc step xs feed[j] s0 initMarket prev
      exact ⟨suf, by simpa [mkBacktester, Backtester.run] using hsuf⟩

set_option maxRecDepth 40000 in
/-- Concrete evaluation of a full run over `feed3` with the open-then-close
strategy: no error, and the ledger holds the one long trade opened at the
clock `(2, 20)` and closed at the clock `(3, 30)`. -/
theorem run_feed3_eval :
    ((mkBacktester feed3).run openCloseStep 0).err = none ∧
    ((mkBacktester feed3).run openCloseStep 0).bt.market.positions =
      [{ type := some .long, open_time := some 2, open_price := some 20,
         close_time := some 3, close_price := some 30 }] := by
  simp +decide [mkBacktester, Backtester.run, runLoop, setClock, feed3, mkCandle,
    openCloseStep, dispatchOps, applyOp, open_position, close_position, initMarket,
    Position.empty]

end TradingTools


namespace TradingTools

/-! ## Theorems -/

/-- C2: for every closed trade with open price `o`, close price `p` and
commission rate `c`, the per-trade profit ratio computed by
`BacktesterStatistics._calc_profit_ratio` equals `p·(1−c) / (o·(1+c))` when
the trade's side is `long` and `o·(1+c) / (p·(1−c))` when it is `short`.
(The ratio is the exact decimal value; the source's final `float(...)` cast is
the presentation-boundary conversion, modelled by `calc_profit_ratio_float`.) -/
theorem calc_profit_ratio_formula (o p c : ℚ) :
    calc_profit_ratio (some .long) o p c = (p * (1 - c)) / (o * (1 + c)) ∧
    calc_profit_ratio (some .short) o p c = (o * (1 + c)) / (p * (1 - c)) := by
  constructor
  · rw [calc_profit_ratio, if_pos rfl]
    congr 1 <;> ring
  · rw [calc_profit_ratio, if_neg (by decide)]
    congr 1 <;> ring

/-- Witness for C2 at `o = 100`, `p = 110`, `c = 0`. -/
theorem calc_profit_ratio_formula_witness :
    calc_profit_ratio (some .long) 100 110 0 = 110 * (1 - 0) / (100 * (1 + 0)) ∧
    calc_profit_ratio (some .short) 100 110 0 = 100 * (1 + 0) / (110 * (1 - 0)) :=
  calc_profit_ratio_formula 100 110 0

/-- C4: opening while a position is open raises and closing while none is
open raises; a successful `open_position` stamps the new position with the
current simulated time and price (leaving the ledger alone), and a successful
`close_position` stamps the close time and price with the current simulated
time and price, appends the closed position to the ledger, and resets the
open-position slot to a fresh `Position()`. -/
theorem market_position_lifecycle :
    (∀ (s : MarketState) (ty : PositionType), s.current_position.type ≠ none →
        (open_position s ty).1 = some .positionAlreadyOpened) ∧
    (∀ (s : MarketState) (ty : PositionType), s.current_position.type = none →
        (open_position s ty).1 = none ∧
        (open_position s ty).2.current_position.type = some ty ∧
        (open_position s ty).2.current_position.open_time = s.current_time ∧
        (open_position s ty).2.current_position.open_price = s.current_price ∧
        (open_position s ty).2.positions = s.positions) ∧
    (∀ s : MarketState, s.current_position.type = none →
        (close_position s).1 = some .positionNotOpened) ∧
    (∀ (s : MarketState) (ty : PositionType), s.current_position.type = some ty →
        (close_position s).1 = none ∧
        (close_position s).2.positions = s.positions ++
          [{ s.current_position with
              close_time := s.current_time, close_price := s.current_price }] ∧
        (close_position s).2.current_position = Position.empty) := by
  refine ⟨fun s ty h => ?_, fun s ty h => ?_, fun s h => ?_, fun s ty h => ?_⟩
  · simp [open_position, h]
  · simp [open_position, h]
  · simp [close_position, h]
  · simp [close_position, h]

/-- Witness for C4: a fresh market accepts an open; a market holding an open
long rejects a second open, accepts the close, and ledgers the trade. -/
theorem market_position_lifecycle_witness :
    ((open_position initMarket .long).1 = none ∧
      (open_position initMarket .long).2.current_position.type = some .long ∧
      (open_position initMarket .long).2.current_position.open_time = initMarket.current_time ∧
      (open_position initMarket .long).2.current_position.open_price = initMarket.current_price ∧
      (open_position initMarket .long).2.positions = initMarket.positions) ∧
    (open_position (open_position initMarket .long).2 .short).1 =
      some .positionAlreadyOpened ∧
    (close_position initMarket).1 = some .positionNotOpened ∧
    ((close_position (open_position initMarket .long).2).1 = none ∧
      (close_position (open_position initMarket .long).2).2.positions =
        (open_position initMarket .long).2.positions ++
          [{ (open_position initMarket .long).2.current_position with
              close_time := (open_position initMarket .long).2.current_time
              close_price := (open_position initMarket .long).2.current_price }] ∧
      (close_position (open_position initMarket .long).2).2.current_position =
        Position.empty) :=
  ⟨market_position_lifecycle.2.1 initMarket .long rfl,
   market_position_lifecycle.1 _ .short (by simp [open_position, initMarket, Position.empty]),
   market_position_lifecycle.2.2.1 initMarket rfl,
   market_position_lifecycle.2.2.2 _ .long (by simp [open_position, initMarket, Position.empty])⟩

/-- C10: a rejected `open_position` (position already open) and a rejected
`close_position` (no open position) leave the entire market state — ledger,
open slot, simulated time and price — exactly as it was: the guard raises
before any mutation. -/
theorem failed_market_call_leaves_state_unchanged :
    (∀ (s : MarketState) (ty : PositionType), s.current_position.type ≠ none →
        (open_position s ty).2 = s) ∧
    (∀ s : MarketState, s.current_position.type = none → (close_position s).2 = s) := by
  refine ⟨fun s ty h => ?_, fun s h => ?_⟩
  · simp [open_position, h]
  · simp [close_position, h]

/-- Witness for C10: the failed second open and the failed close on a fresh
market both return the state unchanged. -/
theorem failed_market_call_leaves_state_unchanged_witness :
    (open_position (open_position initMarket .long).2 .short).2 =
      (open_position initMarket .long).2 ∧
    (close_position initMarket).2 = initMarket :=
  ⟨failed_market_call_leaves_state_unchanged.1 _ .short
      (by simp [open_position, initMarket, Position.empty]),
   failed_market_call_leaves_state_unchanged.2 initMarket rfl⟩

/-- C1, as amended: in `Backtester.run`, every dispatch of candle `i` runs
with the market clock holding candle `i+1`'s time *and* candle `i+1`'s
opening price — the source sets `current_time = next_candle.time` together
with `current_price = next_candle.open`, so the decision taken while
observing candle `i` is time-stamped with candle `i+1`'s time (not candle
`i`'s) and priced at candle `i+1`'s open. -/
theorem run_dispatch_clock_from_next_candle (feed : List Candle) (σ : Type)
    (step : σ → Candle → MarketState → σ × List MarketOp) (s0 : σ) :
    ∃ suf,
      ((mkBacktester feed).run step s0).trace.map (fun e => (e.candle, e.time, e.price))
        ++ suf = expectedTrace feed := by
  cases feed with
  | nil => exact ⟨[], by simp [mkBacktester, Backtester.run, expectedTrace]⟩
  | cons prev rest =>
    obtain ⟨suf, h⟩ := runLoop_trace_zip step rest s0 initMarket prev
    exact ⟨suf, by simpa [mkBacktester, Backtester.run, expectedTrace] using h⟩

/-- Witness for (amended) C1 at `feed3` with the open-then-close strategy. -/
theorem run_dispatch_clock_from_next_candle_witness :
    ∃ suf,
      ((mkBacktester feed3).run openCloseStep 0).trace.map (fun e => (e.candle, e.time, e.price))
        ++ suf = expectedTrace feed3 :=
  run_dispatch_clock_from_next_candle feed3 ℕ openCloseStep 0

/-- Counterexample to C1 as stated: on `feed2` (times 1, 2) the single
dispatch delivers candle 1 but the market clock holds time 2, the *next*
candle's time, so a decision observing candle `i` is not time-stamped with
candle `i`'s time. -/
theorem run_dispatch_clock_not_current_candle_time :
    (((mkBacktester feed2).run constStep ()).trace.map (fun e => (e.candle.time, e.time))
        = [(1, 2)]) ∧
    ¬ (∀ e ∈ ((mkBacktester feed2).run constStep ()).trace, e.time = e.candle.time) := by
  have heval : ((mkBacktester feed2).run constStep ()).trace =
      [⟨mkCandle 1 10 10, 2, 20, []⟩] := by
    simp [mkBacktester, Backtester.run, runLoop, setClock, feed2, mkCandle, constStep,
      dispatchOps]
  refine ⟨by rw [heval]; simp [mkCandle], fun h => ?_⟩
  have := h _ (by rw [heval]; exact List.mem_singleton.mpr rfl)
  simp [mkCandle] at this

/-- C9: when a run completes without error, the strategy's `on_candle` was
invoked exactly `n − 1` times, on the first `n − 1` candles of the feed in
order; the final candle is never delivered (it only supplies the clock of the
last dispatch).  An empty feed cannot complete (it raises `StopIteration`),
so `n ≥ 1` is implied by the no-error hypothesis. -/
theorem run_dispatches_all_but_last (feed : List Candle) (σ : Type)
    (step : σ → Candle → MarketState → σ × List MarketOp) (s0 : σ)
    (h : ((mkBacktester feed).run step s0).err = none) :
    ((mkBacktester feed).run step s0).trace.map TraceEntry.candle = feed.dropLast ∧
    ((mkBacktester feed).run step s0).trace.length = feed.length - 1 := by
  cases feed with
  | nil => simp [mkBacktester, Backtester.run] at h
  | cons prev rest =>
    have herr : (runLoop step s0 initMarket prev rest).err = none := by
      simpa [mkBacktester, Backtester.run] using h
    have htr := (runLoop_complete step rest s0 initMarket prev herr).2
    have htrace :
        ((mkBacktester (prev :: rest)).run step s0).trace.map TraceEntry.candle
          = (prev :: rest).dropLast := by
      simpa [mkBacktester, Backtester.run] using htr
    refine ⟨htrace, ?_⟩
    have hlen := congrArg List.length htrace
    simpa using hlen

/-- Witness for C9 at `feed3` with the open-then-close strategy. -/
theorem run_dispatches_all_but_last_witness :
    ((mkBacktester feed3).run openCloseStep 0).trace.map TraceEntry.candle = feed3.dropLast ∧
    ((mkBacktester feed3).run openCloseStep 0).trace.length = feed3.length - 1 :=
  run_dispatches_all_but_last feed3 ℕ openCloseStep 0 run_feed3_eval.1

/-- C6, as amended (first half): calling `run` a second time on the same
backtester does fail — but with `StopIteration` from `next()` on the
exhausted candle iterator, not through any completeness check (the `_tested`
flag is assigned in `__init__` and never read). -/
theorem second_run_raises (feed : List Candle) (σ : Type)
    (step : σ → Candle → MarketState → σ × List MarketOp) (s0 : σ)
    (h : ((mkBacktester feed).run step s0).err = none) :
    (((mkBacktester feed).run step s0).bt.run step s0).err = some .stopIteration := by
  cases feed with
  | nil => simp [mkBacktester, Backtester.run] at h
  | cons prev rest =>
    have herr : (runLoop step s0 initMarket prev rest).err = none := by
      simpa [mkBacktester, Backtester.run] using h
    have hrem := (runLoop_complete step rest s0 initMarket prev herr).1
    simp [mkBacktester, Backtester.run, hrem]

/-- Witness for (amended) C6: after the one-candle feed completes, a second
`run` raises `StopIteration`. -/
theorem second_run_raises_witness :
    (((mkBacktester feed1).run constStep ()).bt.run constStep ()).err =
      some .stopIteration :=
  second_run_raises feed1 Unit constStep ()
    (by simp [mkBacktester, Backtester.run, runLoop, feed1])

/-- Counterexample to C6 as stated (second half): statistics are derivable at
any moment, with no error.  `feed4.take 3` reproduces the state of a `feed4`
run after only two of its three dispatches (one trade closed, the feed not
yet complete), and `BacktesterStatistics` computed over that mid-run ledger
returns an ordinary value — `positions` has no completeness guard at all. -/
theorem statistics_before_complete_no_error :
    feed4.take 3 ≠ feed4 ∧
    positions_table
        (((mkBacktester (feed4.take 3)).run openCloseStep 0).bt.market.positions) 0
      = [(3 / 2, 3 / 2)] := by
  have ht : feed4.take 3 = feed3 := by simp [feed4, feed3]
  constructor
  · rw [ht]
    intro h
    have := congrArg List.length h
    simp [feed3, feed4] at this
  · rw [ht, run_feed3_eval.2]
    norm_num [positions_table, row_profit_ratio, calc_profit_ratio_float,
      calc_profit_ratio, calc_equity, calc_equity_aux, float64_eval_3_2]

/-- C5: over a candle feed with strictly increasing times, with the strategy
issuing at most one market operation per dispatch (the documented contract)
and the run completing without error: the trade ledger's close times are
exactly the clock times of the dispatches in which `close_position` was
invoked, in order and strictly increasing; and the ledger is append-only —
running one more candle only ever appends to it, never removes or mutates an
entry. -/
theorem ledger_close_times_strictly_increasing (feed : List Candle) (σ : Type)
    (step : σ → Candle → MarketState → σ × List MarketOp) (s0 : σ)
    (hchain : List.Chain' (· < ·) (feed.map Candle.time))
    (hstep : ∀ s c m, ((step s c m).2).length ≤ 1)
    (herr : ((mkBacktester feed).run step s0).err = none) :
    ((mkBacktester feed).run step s0).bt.market.positions.map Position.close_time
        = (closeClocksOf ((mkBacktester feed).run step s0).trace).map some ∧
    List.Chain' (· < ·) (closeClocksOf ((mkBacktester feed).run step s0).trace) ∧
    ∀ j : ℕ, ∃ suf,
      ((mkBacktester (feed.take (j + 1))).run step s0).bt.market.positions
        = ((mkBacktester (feed.take j)).run step s0).bt.market.positions ++ suf := by
  have main :
      ((mkBacktester feed).run step s0).bt.market.positions.map Position.close_time
          = (closeClocksOf ((mkBacktester feed).run step s0).trace).map some ∧
      List.Chain' (· < ·) (closeClocksOf ((mkBacktester feed).run step s0).trace) := ?_
  · exact ⟨main.1, main.2, fun j => run_take_mono feed σ step s0 j⟩
  cases feed with
  | nil => simp [mkBacktester, Backtester.run] at herr
  | cons prev rest =>
    have herr' : (runLoop step s0 initMarket prev rest).err = none := by
      simpa [mkBacktester, Backtester.run] using herr
    have hpw := List.chain'_iff_pairwise.mp hchain
    rw [List.map_cons, List.pairwise_cons] at hpw
    have hhead : ∀ c ∈ rest, prev.time < c.time := fun c hc =>
      hpw.1 _ (List.mem_map_of_mem Candle.time hc)
    have hchain' : List.Chain' (· < ·) (rest.map Candle.time) :=
      List.chain'_iff_pairwise.mpr hpw.2
    obtain ⟨newL, h1, h2, h3, _⟩ := runLoop_closes step hstep rest s0 initMarket
      prev prev.time herr' hchain' hhead
    have hpos : ((mkBacktester (prev :: rest)).run step s0).bt.market.positions = newL := by
      have : (runLoop step s0 initMarket prev rest).market.positions = newL := by
        rw [h1]; rfl
      simpa [mkBacktester, Backtester.run] using this
    have htr : ((mkBacktester (prev :: rest)).run step s0).trace
        = (runLoop step s0 initMarket prev rest).trace := by
      simp [mkBacktester, Backtester.run]
    rw [hpos, htr]
    exact ⟨h2, h3⟩

/-- Witness for C5 at `feed3` (times 1 < 2 < 3) with the open-then-close
strategy, which issues at most one operation per dispatch. -/
theorem ledger_close_times_strictly_increasing_witness :
    ((mkBacktester feed3).run openCloseStep 0).bt.market.positions.map Position.close_time
        = (closeClocksOf ((mkBacktester feed3).run openCloseStep 0).trace).map some ∧
    List.Chain' (· < ·) (closeClocksOf ((mkBacktester feed3).run openCloseStep 0).trace) ∧
    ∀ j : ℕ, ∃ suf,
      ((mkBacktester (feed3.take (j + 1))).run openCloseStep 0).bt.market.positions
        = ((mkBacktester (feed3.take j)).run openCloseStep 0).bt.market.positions ++ suf :=
  ledger_close_times_strictly_increasing feed3 ℕ openCloseStep 0
    (by simp +decide [feed3, mkCandle])
    (by intro s c m; by_cases h0 : s = 0 <;> by_cases h1 : s = 1 <;>
      simp [openCloseStep, h0, h1])
    run_feed3_eval.1

/-- The sign of a negative difference. -/
theorem signOf_neg {d : ℤ} (h : d < 0) : signOf d = -1 := by
  rw [signOf, if_neg (by omega), if_pos h]

/-- The sign of a positive difference. -/
theorem signOf_pos {d : ℤ} (h : 0 < d) : signOf d = 1 := by
  rw [signOf, if_pos h]

/-- The sign of a zero difference. -/
theorem signOf_zero : signOf 0 = 0 := by
  rw [signOf, if_neg (by omega), if_neg (by omega)]

/-- Applying `generate_signal` to the signs of two consecutive differences follows the
crossing rule: buy on a (negative or zero) → positive transition, sell on a
(positive or zero) → negative transition, nothing otherwise. -/
theorem generate_signal_signOf (a b : ℤ) :
    (generate_signal (signOf a) (signOf b) = some .buy ↔
      ((a < 0 ∧ 0 < b) ∨ (a = 0 ∧ 0 < b))) ∧
    (generate_signal (signOf a) (signOf b) = some .sell ↔
      ((0 < a ∧ b < 0) ∨ (a = 0 ∧ b < 0))) := by
  rcases lt_trichotomy a 0 with ha | ha | ha <;>
    rcases lt_trichotomy b 0 with hb | hb | hb
  · rw [signOf_neg ha, signOf_neg hb]
    constructor <;> constructor <;> simp [generate_signal] <;> omega
  · rw [signOf_neg ha, hb, signOf_zero]
    constructor <;> constructor <;> simp [generate_signal] <;> omega
  · rw [signOf_neg ha, signOf_pos hb]
    constructor <;> constructor <;> simp [generate_signal] <;> omega
  · rw [ha, signOf_zero, signOf_neg hb]
    constructor <;> constructor <;> simp [generate_signal] <;> omega
  · rw [ha, hb, signOf_zero]
    constructor <;> constructor <;> simp [generate_signal] <;> omega
  · rw [ha, signOf_zero, signOf_pos hb]
    constructor <;> constructor <;> simp [generate_signal] <;> omega
  · rw [signOf_pos ha, signOf_neg hb]
    constructor <;> constructor <;> simp [generate_signal] <;> omega
  · rw [signOf_pos ha, hb, signOf_zero]
    constructor <;> constructor <;> simp [generate_signal] <;> omega
  · rw [signOf_pos ha, signOf_pos hb]
    constructor <;> constructor <;> simp [generate_signal] <;> omega

/-- C8, as amended: whenever the crossover trader's `on_candle` computes a
new SMA difference `dnew = sma_short − sma_long` (the history is full), given
the reachability invariant that the sign series is the sign of the difference
series minus its first entry: if at most one difference was recorded before,
*no* signal is emitted (in particular the first pair of consecutive
SMA-difference observations never signals); and from the second pair onward,
a buy is emitted exactly when the previous difference was negative (or zero)
and the new one positive, and a sell exactly when the previous difference was
positive (or zero) and the new one negative. -/
theorem crossover_signal_rule (st : MAState) (c : Candle)
    (hinv : MAInvariant st)
    (hfull : (st.history.add c.close c.time).data.length = 10)
    (d2t d10t : ℕ) (s2 s10 : ℤ)
    (h2 : (st.history.add c.close c.time).calc_sma 2 = .ok (d2t, s2))
    (h10 : (st.history.add c.close c.time).calc_sma 10 = .ok (d10t, s10)) :
    (st.sma_diffs.length ≤ 1 → (st.on_candle c).2 = none) ∧
    (∀ dprev, 2 ≤ st.sma_diffs.length → st.sma_diffs.getLast? = some dprev →
      (((st.on_candle c).2 = some .buy ↔
        ((dprev.2 < 0 ∧ 0 < s2 - s10) ∨ (dprev.2 = 0 ∧ 0 < s2 - s10))) ∧
       ((st.on_candle c).2 = some .sell ↔
        ((0 < dprev.2 ∧ s2 - s10 < 0) ∨ (dprev.2 = 0 ∧ s2 - s10 < 0))))) := by
  rw [MAInvariant] at hinv
  rcases hds : st.sma_diffs with _ | ⟨d0, _ | ⟨d1, ds⟩⟩
  · rw [hds] at hinv
    simp only [List.drop_nil, List.map_nil] at hinv
    have hnone : (st.on_candle c).2 = none := by
      simp only [MAState.on_candle, hfull, h2, h10, hds, hinv]
      simp
    exact ⟨fun _ => hnone, fun dprev hlen _ => by simp at hlen⟩
  · rw [hds] at hinv
    simp only [List.drop_succ_cons, List.drop_nil, List.map_nil] at hinv
    have hnone : (st.on_candle c).2 = none := by
      simp only [MAState.on_candle, hfull, h2, h10, hds, hinv]
      simp
    exact ⟨fun _ => hnone, fun dprev hlen _ => by simp at hlen⟩
  · rw [hds] at hinv
    simp only [List.drop_succ_cons, List.drop_zero] at hinv
    refine ⟨fun hlen => by simp at hlen, fun dprev _ hlast => ?_⟩
    rw [List.getLast?_cons_cons] at hlast
    have hsig : (st.on_candle c).2 =
        generate_signal (signOf dprev.2) (signOf (s2 - s10)) := by
      simp only [MAState.on_candle, hfull, h2, h10, hds, hinv]
      have hlen1 : 2 ≤ ((d0 :: d1 :: ds) ++ [(d2t, s2 - s10)]).length := by
        simp
      have hlen2 : 2 ≤ (((d1 :: ds).map (fun p => (p.1, signOf p.2))) ++
          [(d2t, signOf (s2 - s10))]).length := by
        simp
      rw [if_pos hlen1, if_pos hlen2, List.dropLast_concat, List.getLast?_concat,
        List.getLast?_map, hlast]
      rfl
    rw [hsig]
    exact generate_signal_signOf dprev.2 (s2 - s10)

/-- Witness for (amended) C8: `maMidState` satisfies the invariant, its
history fills to 10 samples on the next candle, the previous difference is
`4 > 0` and the new difference is `0`, so no signal is emitted. -/
theorem crossover_signal_rule_witness :
    ((maMidState.on_candle (mkCandle 10 100 100)).2 = some .buy ↔
      ((((6 : ℕ), (4 : ℤ)).2 < 0 ∧ 0 < (10000 : ℤ) - 10000) ∨
        (((6 : ℕ), (4 : ℤ)).2 = 0 ∧ 0 < (10000 : ℤ) - 10000))) ∧
    ((maMidState.on_candle (mkCandle 10 100 100)).2 = some .sell ↔
      ((0 < (((6 : ℕ), (4 : ℤ)).2) ∧ (10000 : ℤ) - 10000 < 0) ∨
        ((((6 : ℕ), (4 : ℤ)).2) = 0 ∧ (10000 : ℤ) - 10000 < 0))) :=
  (crossover_signal_rule maMidState (mkCandle 10 100 100)
    (by rw [MAInvariant]; rfl)
    (by norm_num [maMidState, mkCandle, PriceHistory.add, int_trunc])
    10 10 10000 10000
    (by norm_num [maMidState, mkCandle, PriceHistory.add, PriceHistory.calc_sma, int_trunc])
    (by norm_num [maMidState, mkCandle, PriceHistory.add, PriceHistory.calc_sma,
      int_trunc])).2
    ((6 : ℕ), (4 : ℤ)) (by rw [show maMidState.sma_diffs = [(5, -3), (6, 4)] from rfl]; simp)
    (by rw [show maMidState.sma_diffs = [(5, -3), (6, 4)] from rfl]; rfl)

/-- Counterexample to C8 as stated: over `maFeed` the first two SMA-difference
observations are `-800` then `3200` — a negative-to-positive sign transition —
yet the trader emits no buy signal anywhere in the run (the first difference
never receives a sign, so the first pair cannot signal). -/
theorem first_diff_pair_no_signal :
    (runMA initMAState maFeed).1.sma_diffs.map Prod.snd = [-800, 3200] ∧
    ((-800 : ℤ) < 0 ∧ (0 : ℤ) < 3200) ∧
    ¬ some OrderType.buy ∈ (runMA initMAState maFeed).2 := by
  refine ⟨by rw [runMA_maFeed_eval.2]; rfl, by norm_num, ?_⟩
  rw [runMA_maFeed_eval.1]
  simp [List.mem_replicate]

/-- The helper of `_calc_equity` produces the running products scaled by the
accumulator it starts from. -/
theorem calc_equity_aux_eq : ∀ (rs : List ℚ) (e : ℚ),
    calc_equity_aux e rs = (List.range rs.length).map (fun i => e * (rs.take (i + 1)).prod) := by
  intro rs
  induction rs with
  | nil => intro e; simp [calc_equity_aux]
  | cons v vs ih =>
    intro e
    rw [calc_equity_aux, ih (e * v)]
    rw [List.length_cons, List.range_succ_eq_map, List.map_cons, List.map_map]
    congr 1
    · simp
    · refine List.map_congr_left fun i _ => ?_
      simp [Function.comp, List.take_succ_cons, mul_assoc]

/-- C7, as amended: `PriceHistory` stores prices as integer cents
(`int(price * 100)`), so with capacity 3 and prices 10, 20, 30 the SMA over
window 3 is `2000` (i.e. `100 × 20`); adding a fourth price 40 evicts the
oldest sample and the SMA over window 3 becomes `3000` (`100 × 30`); a window
of 4 exceeds the capacity and fails with the configuration `ValueError`; and
the stored length never exceeds the capacity. -/
theorem price_history_sma_cents :
    ph3.calc_sma 3 = .ok (3, 2000) ∧
    ph4.data = [(2, 2000), (3, 3000), (4, 4000)] ∧
    ph4.calc_sma 3 = .ok (4, 3000) ∧
    ph4.calc_sma 4 = .error .configuration ∧
    ∀ (h : PriceHistory) (p : ℚ) (t : ℕ), h.data.length ≤ h.size →
      (h.add p t).data.length ≤ h.size := by
  have hdata3 : ph3.data = [(1, 1000), (2, 2000), (3, 3000)] := by
    norm_num [ph3, mkPriceHistory, PriceHistory.add, int_trunc]
  have hsize3 : ph3.size = 3 := rfl
  have hsize4 : ph4.size = 3 := rfl
  have hdata4 : ph4.data = [(2, 2000), (3, 3000), (4, 4000)] := by
    norm_num [ph4, PriceHistory.add, hdata3, hsize3, int_trunc]
  refine ⟨?_, hdata4, ?_, ?_, ?_⟩
  · norm_num [PriceHistory.calc_sma, hdata3, hsize3, int_trunc]
  · norm_num [PriceHistory.calc_sma, hdata4, hsize4, int_trunc]
  · have hlt : ph4.size < 4 := by rw [hsize4]; norm_num
    rw [PriceHistory.calc_sma, if_pos hlt]
  · intro h p t hlen
    rw [PriceHistory.add]
    split
    · simpa using hlen
    · next hcond =>
      simp only [List.length_append, List.length_singleton] at hcond ⊢
      omega

/-- Witness for (amended) C7: the capacity invariant applied to `ph3` (three
samples, capacity 3) plus the closed conjuncts re-exported. -/
theorem price_history_sma_cents_witness :
    (ph3.add 40 4).data.length ≤ ph3.size ∧
    ph3.calc_sma 3 = .ok (3, 2000) :=
  ⟨price_history_sma_cents.2.2.2.2 ph3 40 4 (by norm_num
      [ph3, mkPriceHistory, PriceHistory.add, int_trunc]),
   price_history_sma_cents.1⟩

/-- Counterexample to C7 as stated: after prices 10, 20, 30 the SMA over
window 3 is `2000` (cents), not `20` (price units). -/
theorem price_history_sma_not_price_units :
    (ph3.calc_sma 3).toOption.map Prod.snd = some 2000 ∧
    (ph3.calc_sma 3).toOption.map Prod.snd ≠ some 20 := by
  have hdata3 : ph3.data = [(1, 1000), (2, 2000), (3, 3000)] := by
    norm_num [ph3, mkPriceHistory, PriceHistory.add, int_trunc]
  have h : ph3.calc_sma 3 = .ok (3, 2000) := by
    norm_num [PriceHistory.calc_sma, hdata3, show ph3.size = 3 from rfl, int_trunc]
  rw [h]
  simp [Except.toOption]

/-- C3, as amended: `_calc_equity` is the running product of the profit
ratios it is given, starting from 1 (entry `i` is the product of ratios
`0..i`), and on the *exact* decimal ratios `[1.1, 0.9, 1.2]` it returns
exactly `[1.1, 0.99, 1.188]`.  (The exactness claim survives only up to the
point where the pipeline hands `_calc_equity` binary-float ratios — see the
counterexample.) -/
theorem calc_equity_running_product :
    (∀ rs : List ℚ, calc_equity rs =
      (List.range rs.length).map (fun i => (rs.take (i + 1)).prod)) ∧
    calc_equity [11 / 10, 9 / 10, 12 / 10] = [11 / 10, 99 / 100, 1188 / 1000] := by
  constructor
  · intro rs
    rw [calc_equity, calc_equity_aux_eq]
    exact List.map_congr_left fun i _ => one_mul _
  · norm_num [calc_equity, calc_equity_aux]

/-- Witness for (amended) C3: the running-product law evaluated on `[2, 3]`. -/
theorem calc_equity_running_product_witness :
    calc_equity [(2 : ℚ), 3] =
      (List.range ([(2 : ℚ), 3].length)).map (fun i => (([(2 : ℚ), 3].take (i + 1)).prod)) :=
  calc_equity_running_product.1 [2, 3]

/-- Counterexample to C3 as stated: the `positions` pipeline stores
`profit_ratio` as binary floats (`_calc_profit_ratio` ends in `float(...)`),
so for three trades whose exact ratios are `1.1`, `0.9`, `1.2` the equity
column is *not* exactly `[1.1, 0.99, 1.188]` — already its first entry is
`float64(1.1) ≠ 1.1`.  The decimal arithmetic is therefore not float-free. -/
theorem positions_equity_not_exact_after_float :
    (positions_table cexRows 0).map Prod.snd ≠ [11 / 10, 99 / 100, 1188 / 1000] := by
  have hr : cexRows.map (fun r => row_profit_ratio r 0) =
      [float64 (11 / 10), float64 (9 / 10), float64 (6 / 5)] := by
    norm_num [cexRows, row_profit_ratio, calc_profit_ratio_float, calc_profit_ratio]
  have heq : (positions_table cexRows 0).map Prod.snd =
      calc_equity [float64 (11 / 10), float64 (9 / 10), float64 (6 / 5)] := by
    simp only [positions_table]
    rw [hr, List.map_snd_zip]
    simp [calc_equity, calc_equity_aux]
  rw [heq]
  rw [float64_eval_1_1, float64_eval_0_9, float64_eval_1_2]
  norm_num [calc_equity, calc_equity_aux]

end TradingTools

